import Mathlib

/-!
Shallow embedding of the generic output-sink layer of libyang
(`src/printer.c`): the `struct lyp_out` state, the direct write path
(`lyp_write`, `lyp_print`), the deferred-write (hole) mechanism
(`ly_write_skip`, `ly_write_skipped`), and the lifecycle operations
(`lyp_out_reset`, `ly_print_flush`).

Bytes are modelled as `Nat`, byte buffers as `List Nat`.  The two sink
variants whose behaviour is fully determined by the C source without OS
state are modelled: the memory sink (`LYP_OUT_MEMORY`) and the callback
sink (`LYP_OUT_CALLBACK`).  The callback sink stands for the whole class
of non-memory variants (fd, file, fdstream, filepath), which share the
same hole-buffer logic verbatim and differ only in the underlying write
primitive; that primitive is modelled by an oracle of results
(`ClbResult`), one consumed per invocation, recording every invocation
(the bytes handed to the target) in `calls`.

Allocation (`ly_realloc`) is modelled by an oracle `allocs : List Bool`
consumed whenever the code grows a buffer: head `false` means the
realloc returns NULL (C then loses the old pointer), an empty oracle
means success.
-/

namespace Ly

/-- Result codes of the `LY_ERR` enumeration that the modelled paths of
`printer.c` can produce (`LY_SUCCESS`, `LY_ESYS`, `LY_EMEM`). -/
inductive LY_ERR where
  | LY_SUCCESS
  | LY_ESYS
  | LY_EMEM
  deriving DecidableEq

/-- Result of one invocation of the underlying write primitive of a
non-memory sink (the callback, `write(2)`, `fwrite`): `wouldBlock` is a
negative return with `errno` equal to `EAGAIN`/`EWOULDBLOCK`, `err` is a
negative return with any other `errno`, `ok n` is a nonnegative return
reporting `n` bytes accepted. -/
inductive ClbResult where
  | wouldBlock
  | err
  | ok (n : Nat)
  deriving DecidableEq

/-- Variant-specific part (`union method`) of `struct lyp_out`: the
memory sink carries the caller buffer content (`mem.buf`/`mem.len`, the
list holds exactly the `len` logical bytes) and the allocated capacity
(`mem.size`); the callback sink carries the oracle of future primitive
results and the record of invocations made so far. -/
inductive OutMethod where
  | mem (mbuf : List Nat) (msize : Nat)
  | clb (responses : List ClbResult) (calls : List (List Nat))
  deriving DecidableEq

/-- Value that a `size_t` counter wraps to when the C code decrements it
from zero (`--out->hole_count`). -/
def SIZE_MAX_WRAP : Nat := 18446744073709551615

/-- Shared state of `struct lyp_out`: `printed` bytes counter, the
sticky `status`, the outstanding-hole counter `hole_count`, the hole
buffer `buffered` (the list holds exactly the `buf_len` bytes) and its
capacity `buf_size`, plus the allocation oracle. -/
structure LypOut where
  method : OutMethod
  printed : Nat := 0
  status : LY_ERR := .LY_SUCCESS
  hole_count : Nat := 0
  buffered : List Nat := []
  buf_size : Nat := 0
  allocs : List Bool := []
  deriving DecidableEq

/-- Consume one allocation-oracle entry; an exhausted oracle means the
realloc succeeds. -/
def takeAlloc : List Bool → Bool × List Bool
  | [] => (true, [])
  | b :: rest => (b, rest)

/-- Modelled `memcpy(&l[p], bs, bs.length)`: overwrite `bs.length` bytes
of `l` starting at offset `p` (bytes falling outside `l` are dropped; the
modelled code paths only copy in bounds). -/
def writeAt : List Nat → Nat → List Nat → List Nat
  | [], _, _ => []
  | x :: xs, 0, bs =>
    match bs with
    | [] => x :: xs
    | b :: bs' => b :: writeAt xs 0 bs'
  | x :: xs, p + 1, bs => x :: writeAt xs p bs

/-- Retry loop of `lyp_write` around the underlying write primitive: each
iteration invokes the primitive (recording the handed-over bytes in
`calls` and consuming one oracle entry); a `wouldBlock` result triggers
`goto repeat`.  Returns the final `written` value (as `Int`), the
remaining oracle, and the updated invocation record.  An exhausted
oracle acts as a well-behaved target accepting all bytes. -/
def clbRun : List ClbResult → List (List Nat) → List Nat →
    Int × List ClbResult × List (List Nat)
  | [], calls, buf => ((buf.length : Int), [], calls ++ [buf])
  | .wouldBlock :: rest, calls, buf => clbRun rest (calls ++ [buf]) buf
  | .err :: rest, calls, buf => (-1, rest, calls ++ [buf])
  | .ok n :: rest, calls, buf => ((n : Int), rest, calls ++ [buf])

/-- Modelled from the spec: the `LYOUT_CHECK` macro of
`printer_internal.h` (a header of this repository that is not under
`src/`), which per the spec checks the sticky status at the start of
every write/skip operation and makes the operation fail immediately,
returning the stored status, once it is set. -/
def lyout_check_fails (out : LypOut) : Bool := out.status ≠ LY_ERR.LY_SUCCESS

/-- Hole-buffering branch of `lyp_write` (printer.c:509-524): while
`hole_count` is nonzero the bytes are appended to the hole buffer,
growing it if needed; on realloc failure `buf_len` and `buf_size` are
zeroed (the old content is lost) and `LY_EMEM` is returned.  `printed`
is not touched. -/
def lyp_write_hole (out : LypOut) (buf : List Nat) : LY_ERR × LypOut :=
  if out.buffered.length + buf.length > out.buf_size then
    let a := takeAlloc out.allocs
    if a.1 then
      (LY_ERR.LY_SUCCESS,
        { out with buffered := out.buffered ++ buf,
                   buf_size := out.buffered.length + buf.length,
                   allocs := a.2 })
    else
      (LY_ERR.LY_EMEM, { out with buffered := [], buf_size := 0, allocs := a.2 })
  else
    (LY_ERR.LY_SUCCESS, { out with buffered := out.buffered ++ buf })

/-- Memory branch of `lyp_write` (printer.c:528-543): grow the caller
buffer to `len + count + 1` if needed (on realloc failure `mem.len` and
`mem.size` are zeroed and `LY_EMEM` returned, status untouched), copy the
bytes, null-terminate, and add `len` to `printed`. -/
def lyp_write_mem (out : LypOut) (mbuf : List Nat) (msize : Nat) (buf : List Nat) :
    LY_ERR × LypOut :=
  if mbuf.length + buf.length + 1 > msize then
    let a := takeAlloc out.allocs
    if a.1 then
      (LY_ERR.LY_SUCCESS,
        { out with method := .mem (mbuf ++ buf) (mbuf.length + buf.length + 1),
                   printed := out.printed + buf.length,
                   allocs := a.2 })
    else
      (LY_ERR.LY_EMEM, { out with method := .mem [] 0, allocs := a.2 })
  else
    (LY_ERR.LY_SUCCESS,
      { out with method := .mem (mbuf ++ buf) msize,
                 printed := out.printed + buf.length })

/-- Callback branch of `lyp_write` (printer.c:552-577): run the retry
loop; a final negative result or a short write (`written != len`) sets
the sticky status to `LY_ESYS` and fails; on success `printed` grows by
the written count. -/
def lyp_write_clb (out : LypOut) (rs : List ClbResult) (calls : List (List Nat))
    (buf : List Nat) : LY_ERR × LypOut :=
  let r := clbRun rs calls buf
  if r.1 < 0 then
    (LY_ERR.LY_ESYS, { out with method := .clb r.2.1 r.2.2, status := LY_ERR.LY_ESYS })
  else if r.1.toNat ≠ buf.length then
    (LY_ERR.LY_ESYS, { out with method := .clb r.2.1 r.2.2, status := LY_ERR.LY_ESYS })
  else
    (LY_ERR.LY_SUCCESS,
      { out with method := .clb r.2.1 r.2.2, printed := out.printed + r.1.toNat })

/-- Raw write `lyp_write` (printer.c:502-578): sticky-status gate, then
either the hole-buffering branch (when `hole_count != 0`) or the
variant-specific target write. -/
def lyp_write (out : LypOut) (buf : List Nat) : LY_ERR × LypOut :=
  if lyout_check_fails out then (out.status, out)
  else if out.hole_count ≠ 0 then lyp_write_hole out buf
  else
    match out.method with
    | .mem mbuf msize => lyp_write_mem out mbuf msize buf
    | .clb rs calls => lyp_write_clb out rs calls buf

/-- Formatted write `lyp_print` (printer.c:399-472), taking the bytes
already rendered by `vasprintf` (formatting itself is out of scope).
Sticky-status gate, then a direct variant write with no hole-buffer
redirection and no retry loop: for the callback variant the primitive is
invoked exactly once and any negative result (including would-block)
sets the sticky status; a nonnegative result adds the accepted count to
`printed` with no short-write check. -/
def lyp_print (out : LypOut) (msg : List Nat) : LY_ERR × LypOut :=
  if lyout_check_fails out then (out.status, out)
  else
    match out.method with
    | .mem mbuf msize =>
      if mbuf.length + msg.length + 1 > msize then
        let a := takeAlloc out.allocs
        if a.1 then
          (LY_ERR.LY_SUCCESS,
            { out with method := .mem (mbuf ++ msg) (mbuf.length + msg.length + 1),
                       printed := out.printed + msg.length,
                       allocs := a.2 })
        else
          (LY_ERR.LY_EMEM, { out with method := .mem [] 0, allocs := a.2 })
      else
        (LY_ERR.LY_SUCCESS,
          { out with method := .mem (mbuf ++ msg) msize,
                     printed := out.printed + msg.length })
    | .clb rs calls =>
      match rs with
      | [] =>
        (LY_ERR.LY_SUCCESS,
          { out with method := .clb [] (calls ++ [msg]),
                     printed := out.printed + msg.length })
      | .ok n :: rest =>
        (LY_ERR.LY_SUCCESS,
          { out with method := .clb rest (calls ++ [msg]),
                     printed := out.printed + n })
      | .wouldBlock :: rest =>
        (LY_ERR.LY_ESYS,
          { out with method := .clb rest (calls ++ [msg]), status := LY_ERR.LY_ESYS })
      | .err :: rest =>
        (LY_ERR.LY_ESYS,
          { out with method := .clb rest (calls ++ [msg]), status := LY_ERR.LY_ESYS })

/-- Reservation `ly_write_skip` (printer.c:580-639), returning
`(result, position, state)`.  Memory variant: grow the caller buffer by
`count` (uninitialised placeholder bytes, modelled as zeros), return the
pre-growth length as the token, and add `count` to `printed`; a realloc
failure zeroes `mem.len`/`mem.size` and sets the sticky status.  Other
variants: append `count` placeholder bytes to the hole buffer, return
the pre-growth hole-buffer length as the token, and increment
`hole_count`; `printed` is not touched; a realloc failure zeroes
`buf_len`/`buf_size` and sets the sticky status.  On a failure the C
code leaves `*position` unwritten; the model returns 0 there (unused). -/
def ly_write_skip (out : LypOut) (count : Nat) : LY_ERR × Nat × LypOut :=
  if lyout_check_fails out then (out.status, 0, out)
  else
    match out.method with
    | .mem mbuf msize =>
      if mbuf.length + count > msize then
        let a := takeAlloc out.allocs
        if a.1 then
          (LY_ERR.LY_SUCCESS, mbuf.length,
            { out with method := .mem (mbuf ++ List.replicate count 0) (mbuf.length + count),
                       printed := out.printed + count,
                       allocs := a.2 })
        else
          (LY_ERR.LY_EMEM, 0,
            { out with method := .mem [] 0, status := LY_ERR.LY_ESYS, allocs := a.2 })
      else
        (LY_ERR.LY_SUCCESS, mbuf.length,
          { out with method := .mem (mbuf ++ List.replicate count 0) msize,
                     printed := out.printed + count })
    | .clb _ _ =>
      if out.buffered.length + count > out.buf_size then
        let a := takeAlloc out.allocs
        if a.1 then
          (LY_ERR.LY_SUCCESS, out.buffered.length,
            { out with buffered := out.buffered ++ List.replicate count 0,
                       buf_size := out.buffered.length + count,
                       hole_count := out.hole_count + 1,
                       allocs := a.2 })
        else
          (LY_ERR.LY_EMEM, 0,
            { out with buffered := [], buf_size := 0, status := LY_ERR.LY_ESYS, allocs := a.2 })
      else
        (LY_ERR.LY_SUCCESS, out.buffered.length,
          { out with buffered := out.buffered ++ List.replicate count 0,
                     hole_count := out.hole_count + 1 })

/-- Backfill `ly_write_skipped` (printer.c:641-685).  Memory variant:
unchecked in-place copy at the token offset.  Other variants: if
`buf_len < position + count` set the sticky status and fail with
`LY_EMEM`; otherwise copy into the hole buffer and decrement
`hole_count` (an unsigned decrement, wrapping when already zero); when
the counter reaches zero the whole hole buffer is written to the target
through `lyp_write` and `buf_len` is reset to zero (capacity kept). -/
def ly_write_skipped (out : LypOut) (position : Nat) (buf : List Nat) : LY_ERR × LypOut :=
  if lyout_check_fails out then (out.status, out)
  else
    match out.method with
    | .mem mbuf msize =>
      (LY_ERR.LY_SUCCESS, { out with method := .mem (writeAt mbuf position buf) msize })
    | .clb _ _ =>
      if out.buffered.length < position + buf.length then
        (LY_ERR.LY_EMEM, { out with status := LY_ERR.LY_ESYS })
      else
        let hc := if out.hole_count = 0 then SIZE_MAX_WRAP else out.hole_count - 1
        let out1 := { out with buffered := writeAt out.buffered position buf,
                               hole_count := hc }
        if hc = 0 then
          let r := lyp_write out1 out1.buffered
          (r.1, { r.2 with buffered := [] })
        else
          (LY_ERR.LY_SUCCESS, out1)

/-- Flush `ly_print_flush` (printer.c:474-500) restricted to the
modelled variants (memory and callback have no stream to flush): it
unconditionally frees the hole buffer and zeroes `buf_len`/`buf_size`.
No sticky-status gate, and `hole_count` is not touched. -/
def ly_print_flush (out : LypOut) : LypOut :=
  { out with buffered := [], buf_size := 0 }

/-- Reset `lyp_out_reset` (printer.c:274-307) restricted to the modelled
variants: memory sets `printed` and `mem.len` to zero (capacity kept);
callback is a no-op.  Both return `LY_SUCCESS`.  No sticky-status
gate. -/
def lyp_out_reset (out : LypOut) : LY_ERR × LypOut :=
  match out.method with
  | .mem _ msize => (LY_ERR.LY_SUCCESS, { out with printed := 0, method := .mem [] msize })
  | .clb _ _ => (LY_ERR.LY_SUCCESS, out)

/-- Default-zero list indexing used by the trace semantics and the
well-formedness side conditions. -/
def nthD : List Nat → Nat → Nat
  | [], _ => 0
  | x :: _, 0 => x
  | _ :: r, n + 1 => nthD r n

/-- One client operation on a sink: a raw write (`lyp_write`), a
reservation (`ly_write_skip`), or a backfill (`ly_write_skipped`) of the
`idx`-th reservation issued in the trace. -/
inductive SinkOp where
  | write (bs : List Nat)
  | skip (count : Nat)
  | fill (idx : Nat) (bs : List Nat)
  deriving DecidableEq

/-- Run state of a trace: the sink plus the position tokens returned by
the reservations issued so far, in order of issue. -/
structure RunSt where
  out : LypOut
  tokens : List Nat
  deriving DecidableEq

/-- Execute one operation: a `fill` resolves its reservation index to
the recorded token. -/
def runOp (s : RunSt) (op : SinkOp) : RunSt :=
  match op with
  | .write bs => { s with out := (lyp_write s.out bs).2 }
  | .skip c =>
    let r := ly_write_skip s.out c
    { out := r.2.2, tokens := s.tokens ++ [r.2.1] }
  | .fill i bs => { s with out := (ly_write_skipped s.out (nthD s.tokens i) bs).2 }

/-- Execute a trace of operations left to right. -/
def runOps (s : RunSt) (ops : List SinkOp) : RunSt := ops.foldl runOp s

/-- Number of reservations in a trace. -/
def numSkips : List SinkOp → Nat
  | [] => 0
  | .skip _ :: r => numSkips r + 1
  | _ :: r => numSkips r

/-- Number of backfills in a trace. -/
def numFills : List SinkOp → Nat
  | [] => 0
  | .fill _ _ :: r => numFills r + 1
  | _ :: r => numFills r

/-- Reserved byte counts of a trace, in order of reservation. -/
def skipCounts : List SinkOp → List Nat
  | [] => []
  | .skip c :: r => c :: skipCounts r
  | _ :: r => skipCounts r

/-- Payloads of the backfills of a trace that target reservation `j`. -/
def fillsFor (src : List SinkOp) (j : Nat) : List (List Nat) :=
  src.filterMap fun op =>
    match op with
    | .fill i bs => if i = j then some bs else none
    | _ => none

/-- Total requested output length of a trace: bytes written plus bytes
reserved. -/
def segLen : List SinkOp → Nat
  | [] => 0
  | .write bs :: r => bs.length + segLen r
  | .skip c :: r => c + segLen r
  | .fill _ _ :: r => segLen r

/-- Pad or cut a byte list to length `c` (identity when the length is
already `c`). -/
def padTo (c : Nat) (bs : List Nat) : List Nat :=
  bs.take c ++ List.replicate (c - bs.length) 0

/-- Content of the region reserved for hole `j` (of `c` bytes) as
determined by the backfills present in `src`: placeholder zeros while
unfilled, the backfill payload once filled. -/
def holeRender (src : List SinkOp) (j c : Nat) : List Nat :=
  match fillsFor src j with
  | [] => List.replicate c 0
  | bs :: _ => padTo c bs

/-- Intended hole-buffer layout of the walked operations: the bytes of a
single direct write of the sequence in original order, with each hole
region rendered from the backfills recorded in `src`; `j` is the
reservation index of the first hole encountered. -/
def layoutAux (src : List SinkOp) : List SinkOp → Nat → List Nat
  | [], _ => []
  | .write bs :: r, j => bs ++ layoutAux src r j
  | .skip c :: r, j => holeRender src j c ++ layoutAux src r (j + 1)
  | .fill _ _ :: r, j => layoutAux src r j

/-- Offsets (position tokens) of the successive hole regions within the
layout of the walked operations, starting from base offset `a`. -/
def offsetsAux : List SinkOp → Nat → List Nat
  | [], _ => []
  | .write bs :: r, a => offsetsAux r (a + bs.length)
  | .skip c :: r, a => a :: offsetsAux r (a + c)
  | .fill _ _ :: r, a => offsetsAux r a

/-- Decidable check of the backfill at trace position `p` (trivially
true when position `p` is not a backfill): its reservation index refers
to an already-issued reservation, its payload length equals the reserved
count, and that reservation has not been backfilled before. -/
def fillOkB (epi : List SinkOp) (p : Nat) : Bool :=
  match (epi.drop p).head? with
  | some (.fill i bs) =>
    decide (i < numSkips (epi.take p)) &&
      decide (bs.length = nthD (skipCounts (epi.take p)) i) &&
      decide (fillsFor (epi.take p) i = [])
  | _ => true

/-- Well-formed single-episode trace: it contains at least one
reservation, every reservation is backfilled by the end, the holes stay
outstanding at every proper prefix (the episode closes only with the
final operation), and each backfill is valid per `fillOkB`. -/
@[reducible] def WFep (epi : List SinkOp) : Prop :=
  1 ≤ numSkips epi ∧
  numFills epi = numSkips epi ∧
  (∀ n, n < epi.length → 1 ≤ n → numFills (epi.take n) < numSkips (epi.take n)) ∧
  (∀ p, p < epi.length → fillOkB epi p = true)

/-- Fresh-episode start state: a callback sink with no outstanding hole,
an empty hole buffer, clean status, a well-behaved target (empty
response oracle), no pending allocation failures, and arbitrary history
(`C` past invocations, `p` printed bytes, `sz` retained hole-buffer
capacity). -/
def epStart (C : List (List Nat)) (p sz : Nat) : RunSt :=
  { out := { method := .clb [] C, printed := p, status := .LY_SUCCESS,
             hole_count := 0, buffered := [], buf_size := sz, allocs := [] },
    tokens := [] }

/-- State invariant of a well-formed episode after the prefix `q` has
run: clean status, untouched invocation record and printed counter, an
exhausted allocation oracle, a hole counter balancing reservations
against backfills, a hole buffer equal to the intended layout of `q`,
and tokens equal to the hole offsets. -/
def EpInv (C : List (List Nat)) (p : Nat) (q : List SinkOp) (s : RunSt) : Prop :=
  s.out.method = .clb [] C ∧
  s.out.status = .LY_SUCCESS ∧
  s.out.printed = p ∧
  s.out.allocs = [] ∧
  s.out.hole_count = numSkips q - numFills q ∧
  s.out.buffered = layoutAux q q 0 ∧
  s.tokens = offsetsAux q 0

/-- Invocation record of a callback sink (empty for a memory sink). -/
def callsOf (out : LypOut) : List (List Nat) :=
  match out.method with
  | .clb _ calls => calls
  | _ => []

/-- Logical content of a memory sink (empty for a callback sink). -/
def memContent (out : LypOut) : List Nat :=
  match out.method with
  | .mem mbuf _ => mbuf
  | _ => []

/-- Capacity of a memory sink (zero for a callback sink). -/
def memSize (out : LypOut) : Nat :=
  match out.method with
  | .mem _ msize => msize
  | _ => 0

/-! Auxiliary lemmas about the byte-level helpers. -/

theorem writeAt_succ (x : Nat) (l : List Nat) (p : Nat) (bs : List Nat) :
    writeAt (x :: l) (p + 1) bs = x :: writeAt l p bs := rfl

theorem writeAt_zero_cons (x b : Nat) (l bs : List Nat) :
    writeAt (x :: l) 0 (b :: bs) = b :: writeAt l 0 bs := rfl

theorem writeAt_zero_empty (l : List Nat) : writeAt l 0 [] = l := by
  cases l <;> rfl

theorem writeAt_append (u v bs : List Nat) (p : Nat) :
    writeAt (u ++ v) (u.length + p) bs = u ++ writeAt v p bs := by
  induction u with
  | nil => simp
  | cons x u ih =>
    have h : (x :: u).length + p = (u.length + p) + 1 := by simp; omega
    rw [h, List.cons_append, writeAt_succ, ih, List.cons_append]

theorem writeAt_cover (bs u v : List Nat) (h : bs.length = u.length) :
    writeAt (u ++ v) 0 bs = bs ++ v := by
  induction bs generalizing u with
  | nil =>
    cases u with
    | nil => simp [writeAt_zero_empty]
    | cons x u => simp at h
  | cons b bs ih =>
    cases u with
    | nil => simp at h
    | cons x u =>
      rw [List.cons_append, writeAt_zero_cons, ih u (by simpa using h), List.cons_append]

theorem padTo_length (c : Nat) (bs : List Nat) : (padTo c bs).length = c := by
  simp [padTo]
  omega

theorem padTo_eq_of_length (c : Nat) (bs : List Nat) (h : bs.length = c) :
    padTo c bs = bs := by
  subst h
  simp [padTo]

theorem holeRender_length (src : List SinkOp) (j c : Nat) :
    (holeRender src j c).length = c := by
  cases h : fillsFor src j with
  | nil => simp [holeRender, h]
  | cons bs t => simp [holeRender, h, padTo_length]

/-! Auxiliary lemmas about the trace-level spec functions. -/

theorem numSkips_append (l1 l2 : List SinkOp) :
    numSkips (l1 ++ l2) = numSkips l1 + numSkips l2 := by
  induction l1 with
  | nil => simp [numSkips]
  | cons op r ih => cases op <;> simp [numSkips, ih] <;> omega

theorem numFills_append (l1 l2 : List SinkOp) :
    numFills (l1 ++ l2) = numFills l1 + numFills l2 := by
  induction l1 with
  | nil => simp [numFills]
  | cons op r ih => cases op <;> simp [numFills, ih] <;> omega

theorem segLen_append (l1 l2 : List SinkOp) :
    segLen (l1 ++ l2) = segLen l1 + segLen l2 := by
  induction l1 with
  | nil => simp [segLen]
  | cons op r ih => cases op <;> simp [segLen, ih] <;> omega

theorem skipCounts_append (l1 l2 : List SinkOp) :
    skipCounts (l1 ++ l2) = skipCounts l1 ++ skipCounts l2 := by
  induction l1 with
  | nil => simp [skipCounts]
  | cons op r ih => cases op <;> simp [skipCounts, ih]

theorem fillsFor_append (l1 l2 : List SinkOp) (j : Nat) :
    fillsFor (l1 ++ l2) j = fillsFor l1 j ++ fillsFor l2 j := by
  simp [fillsFor, List.filterMap_append]

theorem fillsFor_snoc_write (l : List SinkOp) (bs : List Nat) (j : Nat) :
    fillsFor (l ++ [.write bs]) j = fillsFor l j := by
  rw [fillsFor_append]
  simp [fillsFor]

theorem fillsFor_snoc_skip (l : List SinkOp) (c j : Nat) :
    fillsFor (l ++ [.skip c]) j = fillsFor l j := by
  rw [fillsFor_append]
  simp [fillsFor]

theorem fillsFor_snoc_fill (l : List SinkOp) (i : Nat) (bs : List Nat) (j : Nat) :
    fillsFor (l ++ [.fill i bs]) j = fillsFor l j ++ if i = j then [bs] else [] := by
  rw [fillsFor_append]
  by_cases h : i = j <;> simp [fillsFor, h]

theorem layoutAux_length (src w : List SinkOp) : ∀ j, (layoutAux src w j).length = segLen w := by
  induction w with
  | nil => intro j; rfl
  | cons op r ih =>
    intro j
    cases op with
    | write bs => simp [layoutAux, segLen, ih]
    | skip c => simp [layoutAux, segLen, ih, holeRender_length]
    | fill i bs => simp [layoutAux, segLen, ih]

theorem layoutAux_walk_append (src w1 w2 : List SinkOp) :
    ∀ j, layoutAux src (w1 ++ w2) j = layoutAux src w1 j ++ layoutAux src w2 (j + numSkips w1) := by
  induction w1 with
  | nil => intro j; simp [layoutAux, numSkips]
  | cons op r ih =>
    intro j
    cases op with
    | write bs => simp [layoutAux, numSkips, ih]
    | skip c =>
      have h : j + 1 + numSkips r = j + (numSkips r + 1) := by omega
      simp [layoutAux, numSkips, ih, h]
    | fill i bs => simp [layoutAux, numSkips, ih]

theorem layoutAux_src_congr (src src' w : List SinkOp) :
    ∀ j, (∀ k, j ≤ k → fillsFor src' k = fillsFor src k) →
    layoutAux src' w j = layoutAux src w j := by
  induction w with
  | nil => intro j _; rfl
  | cons op r ih =>
    intro j h
    cases op with
    | write bs => simp [layoutAux, ih j h]
    | skip c =>
      have hr : holeRender src' j c = holeRender src j c := by
        simp [holeRender, h j (Nat.le_refl j)]
      rw [layoutAux, layoutAux, hr, ih (j + 1) (fun k hk => h k (by omega))]
    | fill i bs => simp [layoutAux, ih j h]

theorem offsetsAux_length (w : List SinkOp) : ∀ a, (offsetsAux w a).length = numSkips w := by
  induction w with
  | nil => intro a; rfl
  | cons op r ih =>
    intro a
    cases op <;> simp [offsetsAux, numSkips, ih]

theorem nthD_offsetsAux (w : List SinkOp) :
    ∀ a k, k < numSkips w → nthD (offsetsAux w a) k = a + nthD (offsetsAux w 0) k := by
  induction w with
  | nil => intro a k hk; simp [numSkips] at hk
  | cons op r ih =>
    intro a k hk
    cases op with
    | write bs =>
      have h1 := ih (a + bs.length) k (by simpa [numSkips] using hk)
      have h2 := ih (0 + bs.length) k (by simpa [numSkips] using hk)
      simp only [offsetsAux] at h1 h2 ⊢
      omega
    | skip c =>
      cases k with
      | zero => simp [offsetsAux, nthD]
      | succ k =>
        have hk' : k < numSkips r := by simp [numSkips] at hk; omega
        have h1 := ih (a + c) k hk'
        have h2 := ih (0 + c) k hk'
        simp only [offsetsAux, nthD] at h1 h2 ⊢
        omega
    | fill i bs =>
      have h1 := ih a k (by simpa [numSkips] using hk)
      simpa [offsetsAux] using h1

theorem offsetsAux_append (w1 w2 : List SinkOp) :
    ∀ a, offsetsAux (w1 ++ w2) a = offsetsAux w1 a ++ offsetsAux w2 (a + segLen w1) := by
  induction w1 with
  | nil => intro a; simp [offsetsAux, segLen]
  | cons op r ih =>
    intro a
    cases op with
    | write bs =>
      have h : a + bs.length + segLen r = a + (bs.length + segLen r) := by omega
      simp [offsetsAux, segLen, ih, h]
    | skip c =>
      have h : a + c + segLen r = a + (c + segLen r) := by omega
      simp [offsetsAux, segLen, ih, h]
    | fill i bs => simp [offsetsAux, segLen, ih]

theorem layoutAux_fill_update (w : List SinkOp) :
    ∀ (j i : Nat) (bs : List Nat) (src src' : List SinkOp),
      j ≤ i → i - j < numSkips w →
      bs.length = nthD (skipCounts w) (i - j) →
      fillsFor src i = [] → fillsFor src' i = [bs] →
      (∀ k, k ≠ i → fillsFor src' k = fillsFor src k) →
      layoutAux src' w j = writeAt (layoutAux src w j) (nthD (offsetsAux w 0) (i - j)) bs ∧
      nthD (offsetsAux w 0) (i - j) + bs.length ≤ segLen w := by
  induction w with
  | nil => intro j i bs src src' hj hlt hc hs hs' ho; simp [numSkips] at hlt
  | cons op r ih =>
    intro j i bs src src' hj hlt hc hs hs' ho
    cases op with
    | write bs' =>
      have hlt' : i - j < numSkips r := by simpa [numSkips] using hlt
      have hc' : bs.length = nthD (skipCounts r) (i - j) := by simpa [skipCounts] using hc
      obtain ⟨ih1, ih2⟩ := ih j i bs src src' hj hlt' hc' hs hs' ho
      have htok : nthD (offsetsAux (SinkOp.write bs' :: r) 0) (i - j) =
          bs'.length + nthD (offsetsAux r 0) (i - j) := by
        show nthD (offsetsAux r (0 + bs'.length)) (i - j) = _
        rw [nthD_offsetsAux r (0 + bs'.length) (i - j) hlt']
        omega
      constructor
      · rw [htok]
        show bs' ++ layoutAux src' r j =
          writeAt (bs' ++ layoutAux src r j) (bs'.length + nthD (offsetsAux r 0) (i - j)) bs
        rw [writeAt_append, ih1]
      · rw [htok]
        simp only [segLen]
        omega
    | skip c' =>
      rcases Nat.eq_zero_or_pos (i - j) with hij | hij
      · have hji : i = j := by omega
        subst hji
        have hcc : bs.length = c' := by simpa [hij, skipCounts, nthD] using hc
        have htok : nthD (offsetsAux (SinkOp.skip c' :: r) 0) 0 = 0 := by
          simp [offsetsAux, nthD]
        constructor
        · rw [hij, htok]
          show holeRender src' i c' ++ layoutAux src' r (i + 1) =
            writeAt (holeRender src i c' ++ layoutAux src r (i + 1)) 0 bs
          have h1 : holeRender src' i c' = bs := by
            simp [holeRender, hs', padTo_eq_of_length c' bs hcc]
          have h2 : holeRender src i c' = List.replicate c' 0 := by
            simp [holeRender, hs]
          have h3 : layoutAux src' r (i + 1) = layoutAux src r (i + 1) := by
            apply layoutAux_src_congr
            intro k hk
            exact ho k (by omega)
          rw [h1, h2, h3, writeAt_cover bs _ _ (by simp [hcc])]
        · rw [hij, htok]
          simp only [segLen]
          omega
      · have hk1 : i - j = (i - (j + 1)) + 1 := by omega
        have hlt' : i - (j + 1) < numSkips r := by simp [numSkips] at hlt; omega
        have hc' : bs.length = nthD (skipCounts r) (i - (j + 1)) := by
          rw [hk1] at hc; simpa [skipCounts, nthD] using hc
        obtain ⟨ih1, ih2⟩ := ih (j + 1) i bs src src' (by omega) hlt' hc' hs hs' ho
        have htok : nthD (offsetsAux (SinkOp.skip c' :: r) 0) (i - j) =
            c' + nthD (offsetsAux r 0) (i - (j + 1)) := by
          rw [hk1]
          show nthD (0 :: offsetsAux r (0 + c')) ((i - (j + 1)) + 1) = _
          show nthD (offsetsAux r (0 + c')) (i - (j + 1)) = _
          rw [nthD_offsetsAux r (0 + c') _ hlt']
          omega
        constructor
        · rw [htok]
          show holeRender src' j c' ++ layoutAux src' r (j + 1) =
            writeAt (holeRender src j c' ++ layoutAux src r (j + 1))
              (c' + nthD (offsetsAux r 0) (i - (j + 1))) bs
          have h1 : holeRender src' j c' = holeRender src j c' := by
            simp [holeRender, ho j (by omega)]
          have h2 : c' + nthD (offsetsAux r 0) (i - (j + 1)) =
              (holeRender src j c').length + nthD (offsetsAux r 0) (i - (j + 1)) := by
            rw [holeRender_length]
          rw [h1, h2, writeAt_append, ih1]
        · rw [htok]
          simp only [segLen]
          omega
    | fill i' bs'' =>
      have hlt' : i - j < numSkips r := by simpa [numSkips] using hlt
      have hc' : bs.length = nthD (skipCounts r) (i - j) := by simpa [skipCounts] using hc
      obtain ⟨ih1, ih2⟩ := ih j i bs src src' hj hlt' hc' hs hs' ho
      refine ⟨?_, ?_⟩
      · show layoutAux src' r j = writeAt (layoutAux src r j) _ bs
        show layoutAux src' r j =
          writeAt (layoutAux src r j) (nthD (offsetsAux r 0) (i - j)) bs
        exact ih1
      · show nthD (offsetsAux r 0) (i - j) + bs.length ≤ segLen r
        exact ih2

theorem take_succ_of_drop_cons {α : Type} :
    ∀ (l : List α) (n : Nat) (op : α) (rest : List α),
      l.drop n = op :: rest → l.take (n + 1) = l.take n ++ [op] := by
  intro l n
  induction n generalizing l with
  | zero =>
    intro op rest h
    simp at h
    subst h
    rfl
  | succ n ih =>
    intro op rest h
    cases l with
    | nil => simp at h
    | cons x xs =>
      simp only [List.drop_succ_cons] at h
      simp [List.take_succ_cons, ih xs op rest h]

theorem fillsFor_hi (epi : List SinkOp)
    (h : ∀ p, p < epi.length → fillOkB epi p = true) :
    ∀ n, n ≤ epi.length → ∀ K, numSkips (epi.take n) ≤ K → fillsFor (epi.take n) K = [] := by
  intro n
  induction n with
  | zero => intro _ K _; rfl
  | succ n ih =>
    intro hn K hK
    have hn' : n < epi.length := by omega
    cases hd : epi.drop n with
    | nil => have := List.length_drop n epi; rw [hd] at this; simp at this; omega
    | cons op rest =>
      have htake := take_succ_of_drop_cons epi n op rest hd
      have hmono : numSkips (epi.take n) ≤ numSkips (epi.take (n + 1)) := by
        rw [htake, numSkips_append]; omega
      cases op with
      | write bs => rw [htake, fillsFor_snoc_write]; exact ih (by omega) K (by omega)
      | skip c => rw [htake, fillsFor_snoc_skip]; exact ih (by omega) K (by omega)
      | fill i bs =>
        have hfo := h n hn'
        rw [fillOkB, hd] at hfo
        simp only [List.head?] at hfo
        simp only [Bool.and_eq_true, decide_eq_true_eq] at hfo
        have hi : i < numSkips (epi.take n) := hfo.1.1
        rw [htake, fillsFor_snoc_fill]
        have hiK : i ≠ K := by
          rw [htake, numSkips_append] at hK
          simp [numSkips] at hK
          omega
        rw [if_neg hiK]
        simp only [List.append_nil]
        exact ih (by omega) K (by omega)

theorem runOps_snoc (s : RunSt) (l : List SinkOp) (op : SinkOp) :
    runOps s (l ++ [op]) = runOp (runOps s l) op := by
  simp [runOps, List.foldl_append]

theorem ep_step_write (C : List (List Nat)) (p : Nat) (q : List SinkOp) (s : RunSt)
    (bs : List Nat) (hInv : EpInv C p q s) (hpos : numFills q < numSkips q) :
    EpInv C p (q ++ [.write bs]) (runOp s (.write bs)) := by
  obtain ⟨h1, h2, h3, h4, h5, h6, h7⟩ := hInv
  have hbuf : layoutAux (q ++ [SinkOp.write bs]) (q ++ [SinkOp.write bs]) 0 =
      layoutAux q q 0 ++ bs := by
    rw [layoutAux_src_congr q (q ++ [SinkOp.write bs]) (q ++ [SinkOp.write bs]) 0
      (fun k _ => fillsFor_snoc_write q bs k), layoutAux_walk_append]
    simp [layoutAux]
  have htok : offsetsAux (q ++ [SinkOp.write bs]) 0 = offsetsAux q 0 := by
    rw [offsetsAux_append]
    simp [offsetsAux]
  have hns : numSkips (q ++ [SinkOp.write bs]) = numSkips q := by
    rw [numSkips_append]
    simp [numSkips]
  have hnf : numFills (q ++ [SinkOp.write bs]) = numFills q := by
    rw [numFills_append]
    simp [numFills]
  have hck : lyout_check_fails s.out = false := by
    simp [lyout_check_fails, h2]
  have hhc : s.out.hole_count ≠ 0 := by
    rw [h5]
    omega
  simp only [runOp, lyp_write, hck, Bool.false_eq_true, if_false, if_pos hhc, lyp_write_hole]
  by_cases hgrow : s.out.buffered.length + bs.length > s.out.buf_size
  · rw [if_pos hgrow]
    simp only [h4, takeAlloc, if_pos]
    exact ⟨h1, h2, h3, rfl, by simp [hns, hnf, h5], by simp [hbuf, h6], by simp [htok, h7]⟩
  · rw [if_neg hgrow]
    exact ⟨h1, h2, h3, h4, by simp [hns, hnf, h5], by simp [hbuf, h6], by simp [htok, h7]⟩

theorem lyp_write_clean (C : List (List Nat)) (o : LypOut) (buf : List Nat)
    (hm : o.method = .clb [] C) (hs : o.status = .LY_SUCCESS) (hh : o.hole_count = 0) :
    lyp_write o buf = (LY_ERR.LY_SUCCESS,
      { o with method := .clb [] (C ++ [buf]), printed := o.printed + buf.length }) := by
  have hck : lyout_check_fails o = false := by
    simp [lyout_check_fails, hs]
  have h0 : ¬ ((buf.length : Int) < 0) := by omega
  simp only [lyp_write, hck, Bool.false_eq_true, if_false, hh, ne_eq, not_true_eq_false,
    hm, lyp_write_clb, clbRun]
  simp [h0]

theorem ep_step_skip (C : List (List Nat)) (p : Nat) (q : List SinkOp) (s : RunSt)
    (c : Nat) (hInv : EpInv C p q s) (hle : numFills q ≤ numSkips q)
    (hfe : fillsFor q (numSkips q) = []) :
    EpInv C p (q ++ [.skip c]) (runOp s (.skip c)) := by
  obtain ⟨h1, h2, h3, h4, h5, h6, h7⟩ := hInv
  have hbuf : layoutAux (q ++ [SinkOp.skip c]) (q ++ [SinkOp.skip c]) 0 =
      layoutAux q q 0 ++ List.replicate c 0 := by
    rw [layoutAux_src_congr q (q ++ [SinkOp.skip c]) (q ++ [SinkOp.skip c]) 0
      (fun k _ => fillsFor_snoc_skip q c k), layoutAux_walk_append]
    simp [layoutAux, holeRender, hfe]
  have htok : offsetsAux (q ++ [SinkOp.skip c]) 0 = offsetsAux q 0 ++ [segLen q] := by
    rw [offsetsAux_append]
    simp [offsetsAux]
  have hns : numSkips (q ++ [SinkOp.skip c]) = numSkips q + 1 := by
    rw [numSkips_append]
    simp [numSkips]
  have hnf : numFills (q ++ [SinkOp.skip c]) = numFills q := by
    rw [numFills_append]
    simp [numFills]
  have hck : lyout_check_fails s.out = false := by
    simp [lyout_check_fails, h2]
  have hblen : s.out.buffered.length = segLen q := by
    rw [h6, layoutAux_length]
  simp only [runOp, ly_write_skip, hck, Bool.false_eq_true, if_false, h1]
  by_cases hgrow : s.out.buffered.length + c > s.out.buf_size
  · rw [if_pos hgrow]
    simp only [h4, takeAlloc, if_pos]
    refine ⟨rfl, h2, h3, rfl, ?_, ?_, ?_⟩
    · simp only [hns, hnf, h5]
      omega
    · simp [hbuf, h6]
    · simp [htok, h7, hblen]
  · rw [if_neg hgrow]
    refine ⟨rfl, h2, h3, h4, ?_, ?_, ?_⟩
    · simp only [hns, hnf, h5]
      omega
    · simp [hbuf, h6]
    · simp [htok, h7, hblen]

theorem ep_step_fill (C : List (List Nat)) (p : Nat) (q : List SinkOp) (s : RunSt)
    (i : Nat) (bs : List Nat) (hInv : EpInv C p q s)
    (hi : i < numSkips q) (hlen : bs.length = nthD (skipCounts q) i)
    (hnew : fillsFor q i = [])
    (hopen : numFills q + 1 < numSkips q) :
    EpInv C p (q ++ [.fill i bs]) (runOp s (.fill i bs)) := by
  obtain ⟨h1, h2, h3, h4, h5, h6, h7⟩ := hInv
  have hupd := layoutAux_fill_update q 0 i bs q (q ++ [SinkOp.fill i bs])
    (Nat.zero_le i) (by simpa using hi) (by simpa using hlen) hnew
    (by simp [fillsFor_snoc_fill, hnew])
    (fun k hk => by simp [fillsFor_snoc_fill, (Ne.symm hk)])
  rw [Nat.sub_zero] at hupd
  have hbuf : layoutAux (q ++ [SinkOp.fill i bs]) (q ++ [SinkOp.fill i bs]) 0 =
      writeAt (layoutAux q q 0) (nthD (offsetsAux q 0) i) bs := by
    rw [layoutAux_walk_append]
    simpa [layoutAux] using hupd.1
  have htok : offsetsAux (q ++ [SinkOp.fill i bs]) 0 = offsetsAux q 0 := by
    rw [offsetsAux_append]
    simp [offsetsAux]
  have hns : numSkips (q ++ [SinkOp.fill i bs]) = numSkips q := by
    rw [numSkips_append]
    simp [numSkips]
  have hnf : numFills (q ++ [SinkOp.fill i bs]) = numFills q + 1 := by
    rw [numFills_append]
    simp [numFills]
  have hck : lyout_check_fails s.out = false := by
    simp [lyout_check_fails, h2]
  have hblen : s.out.buffered.length = segLen q := by
    rw [h6, layoutAux_length]
  have hbound : ¬ (s.out.buffered.length < nthD s.tokens i + bs.length) := by
    rw [hblen, h7]
    omega
  have hhc0 : s.out.hole_count ≠ 0 := by
    rw [h5]
    omega
  simp only [runOp, ly_write_skipped, hck, Bool.false_eq_true, if_false, h1,
    if_neg hbound, if_neg hhc0]
  have hcnt : s.out.hole_count - 1 ≠ 0 := by
    rw [h5]
    omega
  rw [if_neg hcnt]
  refine ⟨rfl, h2, h3, h4, ?_, ?_, ?_⟩
  · simp only [hns, hnf, h5]
    omega
  · simp [hbuf, h6, h7]
  · simp [htok, h7]

theorem ep_step_fill_close (C : List (List Nat)) (p : Nat) (q : List SinkOp) (s : RunSt)
    (i : Nat) (bs : List Nat) (hInv : EpInv C p q s)
    (hi : i < numSkips q) (hlen : bs.length = nthD (skipCounts q) i)
    (hnew : fillsFor q i = [])
    (hclose : numSkips q = numFills q + 1) :
    (runOp s (.fill i bs)).out.method =
      .clb [] (C ++ [layoutAux (q ++ [SinkOp.fill i bs]) (q ++ [SinkOp.fill i bs]) 0]) ∧
    (runOp s (.fill i bs)).out.status = .LY_SUCCESS ∧
    (runOp s (.fill i bs)).out.printed = p + segLen q ∧
    (runOp s (.fill i bs)).out.hole_count = 0 ∧
    (runOp s (.fill i bs)).out.buffered = [] ∧
    (runOp s (.fill i bs)).out.allocs = [] := by
  obtain ⟨h1, h2, h3, h4, h5, h6, h7⟩ := hInv
  have hupd := layoutAux_fill_update q 0 i bs q (q ++ [SinkOp.fill i bs])
    (Nat.zero_le i) (by simpa using hi) (by simpa using hlen) hnew
    (by simp [fillsFor_snoc_fill, hnew])
    (fun k hk => by simp [fillsFor_snoc_fill, (Ne.symm hk)])
  rw [Nat.sub_zero] at hupd
  have hbuf : layoutAux (q ++ [SinkOp.fill i bs]) (q ++ [SinkOp.fill i bs]) 0 =
      writeAt (layoutAux q q 0) (nthD (offsetsAux q 0) i) bs := by
    rw [layoutAux_walk_append]
    simpa [layoutAux] using hupd.1
  have hck : lyout_check_fails s.out = false := by
    simp [lyout_check_fails, h2]
  have hblen : s.out.buffered.length = segLen q := by
    rw [h6, layoutAux_length]
  have hbound : ¬ (s.out.buffered.length < nthD s.tokens i + bs.length) := by
    rw [hblen, h7]
    omega
  have hhc0 : s.out.hole_count ≠ 0 := by
    rw [h5]
    omega
  have hflen : (writeAt (layoutAux q q 0) (nthD (offsetsAux q 0) i) bs).length = segLen q := by
    rw [← hbuf, layoutAux_length, segLen_append]
    simp [segLen]
  simp only [runOp, ly_write_skipped, hck, Bool.false_eq_true, if_false, h1,
    if_neg hbound, if_neg hhc0]
  have hcnt : s.out.hole_count - 1 = 0 := by
    rw [h5]
    omega
  rw [if_pos hcnt]
  rw [lyp_write_clean C _ _ (by simp [h1]) (by simp [h2]) (by simp [hcnt])]
  refine ⟨?_, h2, ?_, ?_, rfl, h4⟩
  · simp [hbuf, h6, h7]
  · simp [h3, h6, h7, hflen]
  · simp [hcnt]

theorem ep_inv_all (C : List (List Nat)) (p sz : Nat) (epi : List SinkOp) (hWF : WFep epi) :
    ∀ n, n < epi.length → EpInv C p (epi.take n) (runOps (epStart C p sz) (epi.take n)) := by
  obtain ⟨hW1, hW2, hW3, hW4⟩ := hWF
  intro n
  induction n with
  | zero =>
    intro _
    exact ⟨rfl, rfl, rfl, rfl, rfl, rfl, rfl⟩
  | succ n ih =>
    intro hn1
    have hn : n < epi.length := by omega
    have hInv := ih hn
    cases hd : epi.drop n with
    | nil =>
      exfalso
      have hl := List.length_drop n epi
      rw [hd] at hl
      simp at hl
      omega
    | cons op rest =>
      have htake := take_succ_of_drop_cons epi n op rest hd
      rw [htake, runOps_snoc]
      cases op with
      | write bs =>
        apply ep_step_write C p _ _ bs hInv
        rcases Nat.eq_zero_or_pos n with h0 | h0
        · exfalso
          subst h0
          simp only [List.drop_zero] at hd
          have ha := hW3 1 (by omega) (by omega)
          rw [hd] at ha
          simp [numFills, numSkips, List.take_succ_cons] at ha
        · exact hW3 n hn h0
      | skip c =>
        apply ep_step_skip C p _ _ c hInv
        · rcases Nat.eq_zero_or_pos n with h0 | h0
          · subst h0
            simp [numFills, numSkips]
          · exact Nat.le_of_lt (hW3 n hn h0)
        · exact fillsFor_hi epi hW4 n (Nat.le_of_lt hn) (numSkips (epi.take n)) (Nat.le_refl _)
      | fill i bs =>
        have hfo := hW4 n hn
        rw [fillOkB, hd] at hfo
        simp only [List.head?, Bool.and_eq_true, decide_eq_true_eq] at hfo
        obtain ⟨⟨hi, hlen⟩, hnew⟩ := hfo
        apply ep_step_fill C p _ _ i bs hInv hi hlen hnew
        have ha := hW3 (n + 1) hn1 (by omega)
        rw [htake, numFills_append, numSkips_append] at ha
        simpa [numFills, numSkips] using ha

theorem ep_run (C : List (List Nat)) (p sz : Nat) (epi : List SinkOp) (hWF : WFep epi) :
    (runOps (epStart C p sz) epi).out.method = .clb [] (C ++ [layoutAux epi epi 0]) ∧
    (runOps (epStart C p sz) epi).out.status = .LY_SUCCESS ∧
    (runOps (epStart C p sz) epi).out.printed = p + segLen epi ∧
    (runOps (epStart C p sz) epi).out.hole_count = 0 ∧
    (runOps (epStart C p sz) epi).out.buffered = [] := by
  obtain ⟨hW1, hW2, hW3, hW4⟩ := hWF
  have hlen : 1 ≤ epi.length := by
    cases epi with
    | nil => simp [numSkips] at hW1
    | cons a l => simp
  have hmlt : epi.length - 1 < epi.length := by omega
  have hInv := ep_inv_all C p sz epi ⟨hW1, hW2, hW3, hW4⟩ (epi.length - 1) hmlt
  cases hd : epi.drop (epi.length - 1) with
  | nil =>
    exfalso
    have hl := List.length_drop (epi.length - 1) epi
    rw [hd] at hl
    simp at hl
    omega
  | cons op rest =>
    have htake := take_succ_of_drop_cons epi (epi.length - 1) op rest hd
    have hfull : epi.take (epi.length - 1 + 1) = epi := by
      have he : epi.length - 1 + 1 = epi.length := by omega
      rw [he, List.take_length]
    have hsplit : epi = epi.take (epi.length - 1) ++ [op] := by
      rw [← htake, hfull]
    have hcS : numSkips epi = numSkips (epi.take (epi.length - 1)) + numSkips [op] := by
      conv_lhs => rw [hsplit]
      rw [numSkips_append]
    have hcF : numFills epi = numFills (epi.take (epi.length - 1)) + numFills [op] := by
      conv_lhs => rw [hsplit]
      rw [numFills_append]
    have hprefix : epi.length - 1 ≥ 1 →
        numFills (epi.take (epi.length - 1)) < numSkips (epi.take (epi.length - 1)) :=
      fun h1 => hW3 (epi.length - 1) hmlt h1
    cases op with
    | write bs =>
      exfalso
      rcases Nat.eq_zero_or_pos (epi.length - 1) with h0 | h0
      · rw [hsplit, h0] at hW1
        simp [numSkips] at hW1
      · have := hprefix h0
        simp [numSkips, numFills] at hcS hcF
        omega
    | skip c =>
      exfalso
      rcases Nat.eq_zero_or_pos (epi.length - 1) with h0 | h0
      · rw [hsplit, h0] at hW2
        simp [numSkips, numFills] at hW2
      · have := hprefix h0
        simp [numSkips, numFills] at hcS hcF
        omega
    | fill i bs =>
      have hfo := hW4 (epi.length - 1) hmlt
      rw [fillOkB, hd] at hfo
      simp only [List.head?, Bool.and_eq_true, decide_eq_true_eq] at hfo
      obtain ⟨⟨hi, hlenf⟩, hnew⟩ := hfo
      have hclose : numSkips (epi.take (epi.length - 1)) =
          numFills (epi.take (epi.length - 1)) + 1 := by
        simp [numSkips, numFills] at hcS hcF
        omega
      have hfin := ep_step_fill_close C p (epi.take (epi.length - 1))
        (runOps (epStart C p sz) (epi.take (epi.length - 1))) i bs hInv hi hlenf hnew hclose
      have hrw : runOps (epStart C p sz) epi =
          runOp (runOps (epStart C p sz) (epi.take (epi.length - 1))) (SinkOp.fill i bs) := by
        conv_lhs => rw [hsplit]
        rw [runOps_snoc]
      rw [hrw]
      have hq' : epi.take (epi.length - 1) ++ [SinkOp.fill i bs] = epi := hsplit.symm
      have hseg : segLen (epi.take (epi.length - 1)) = segLen epi := by
        conv_rhs => rw [hsplit]
        rw [segLen_append]
        simp [segLen]
      rw [hq', hseg] at hfin
      exact ⟨hfin.1, hfin.2.1, hfin.2.2.1, hfin.2.2.2.1, hfin.2.2.2.2.1⟩

theorem writeAt_fill_exact (u bs : List Nat) :
    writeAt (u ++ List.replicate bs.length 0) u.length bs = u ++ bs := by
  have h := writeAt_append u (List.replicate bs.length 0) bs 0
  rw [Nat.add_zero] at h
  rw [h]
  have h2 := writeAt_cover bs (List.replicate bs.length 0) [] (by simp)
  simp at h2
  rw [h2]

theorem runOps_cons (s : RunSt) (op : SinkOp) (ops : List SinkOp) :
    runOps s (op :: ops) = runOps (runOp s op) ops := rfl

theorem mem_run_printed (ops : List SinkOp) :
    ∀ (s : RunSt) (mbuf : List Nat) (msize : Nat),
      s.out.method = .mem mbuf msize → s.out.status = .LY_SUCCESS →
      s.out.hole_count = 0 → s.out.allocs = [] →
      numFills ops = 0 →
      (runOps s ops).out.printed = s.out.printed + segLen ops := by
  induction ops with
  | nil =>
    intro s mbuf msize _ _ _ _ _
    simp [runOps, segLen]
  | cons op r ih =>
    intro s mbuf msize hm hs hh ha hnf
    rw [runOps_cons]
    cases op with
    | write bs =>
      have hck : lyout_check_fails s.out = false := by
        simp [lyout_check_fails, hs]
      simp only [runOp, lyp_write, hck, Bool.false_eq_true, if_false, hh, ne_eq,
        not_true_eq_false, reduceIte, hm, lyp_write_mem, ha, takeAlloc]
      by_cases hg : mbuf.length + bs.length + 1 > msize
      · rw [if_pos hg]
        rw [ih _ (mbuf ++ bs) (mbuf.length + bs.length + 1) (by simp) (by simp [hs])
          (by simp [hh]) (by simp) (by simpa [numFills] using hnf)]
        simp [segLen]
        omega
      · rw [if_neg hg]
        rw [ih _ (mbuf ++ bs) msize (by simp) (by simp [hs])
          (by simp [hh]) (by simp [ha]) (by simpa [numFills] using hnf)]
        simp [segLen]
        omega
    | skip c =>
      have hck : lyout_check_fails s.out = false := by
        simp [lyout_check_fails, hs]
      simp only [runOp, ly_write_skip, hck, Bool.false_eq_true, if_false, hm, ha, takeAlloc]
      by_cases hg : mbuf.length + c > msize
      · rw [if_pos hg]
        rw [ih _ (mbuf ++ List.replicate c 0) (mbuf.length + c) (by simp) (by simp [hs])
          (by simp [hh]) (by simp) (by simpa [numFills] using hnf)]
        simp [segLen]
        omega
      · rw [if_neg hg]
        rw [ih _ (mbuf ++ List.replicate c 0) msize (by simp) (by simp [hs])
          (by simp [hh]) (by simp [ha]) (by simpa [numFills] using hnf)]
        simp [segLen]
        omega
    | fill i bs =>
      exfalso
      simp [numFills] at hnf

/-- C1 amended: the ordering law holds for the raw write path: for every
well-formed single-episode trace of raw writes (`lyp_write`),
reservations and backfills (in any order) on a callback sink, the target
receives nothing at any proper prefix of the trace, and at the end it
has received exactly one extra call carrying the bytes of a single
direct write of the full sequence in original call order with each hole
replaced by its final content, with clean status.  The formatted write
`lyp_print`, however, is not redirected into the hole buffer: it always
delivers its bytes to the target immediately, even while holes are
outstanding (see the counterexample). -/
theorem c1_hole_ordering (C : List (List Nat)) (p sz : Nat) (epi : List SinkOp)
    (hWF : WFep epi) :
    callsOf (runOps (epStart C p sz) epi).out = C ++ [layoutAux epi epi 0] ∧
    (runOps (epStart C p sz) epi).out.status = .LY_SUCCESS ∧
    (∀ n, n < epi.length → callsOf (runOps (epStart C p sz) (epi.take n)).out = C) ∧
    (∀ (o : LypOut) (cs : List (List Nat)) (msg : List Nat),
      o.method = .clb [] cs → o.status = .LY_SUCCESS →
      callsOf (lyp_print o msg).2 = cs ++ [msg]) := by
  refine ⟨?_, (ep_run C p sz epi hWF).2.1, ?_, ?_⟩
  · have h := (ep_run C p sz epi hWF).1
    simp [callsOf, h]
  · intro n hn
    have h := (ep_inv_all C p sz epi hWF n hn).1
    simp [callsOf, h]
  · intro o cs msg hm hs
    simp [lyp_print, lyout_check_fails, hs, hm, callsOf]

/-- C1 counterexample: on a callback sink with one outstanding 2-byte
hole and nothing backfilled, the formatted write of the byte 97 reaches
the real target immediately: the callback receives the call [[97]] and
the operation succeeds, so bytes do reach the target before every
reservation has been backfilled. -/
theorem c1_print_bypass_counterexample :
    (runOps (epStart [] 0 0) [SinkOp.skip 2]).out.hole_count = 1 ∧
    (lyp_print (runOps (epStart [] 0 0) [SinkOp.skip 2]).out [97]).1 = LY_ERR.LY_SUCCESS ∧
    callsOf (lyp_print (runOps (epStart [] 0 0) [SinkOp.skip 2]).out [97]).2 = [[97]] := by
  decide

/-- Witness for C1: the callback-sink scenario of the spec: a 2-byte
hole is opened, then "abc" (bytes 97 98 99) is written; before the
backfill the callback has received nothing, and after backfilling the
hole with "Z!" (bytes 90 33) it has received exactly one call carrying
the 5 bytes "Z!abc". -/
theorem c1_hole_ordering_witness :
    WFep [SinkOp.skip 2, SinkOp.write [97, 98, 99], SinkOp.fill 0 [90, 33]] ∧
    callsOf (runOps (epStart [] 0 0)
      [SinkOp.skip 2, SinkOp.write [97, 98, 99], SinkOp.fill 0 [90, 33]]).out
      = [[90, 33, 97, 98, 99]] ∧
    callsOf (runOps (epStart [] 0 0)
      ([SinkOp.skip 2, SinkOp.write [97, 98, 99], SinkOp.fill 0 [90, 33]].take 2)).out = [] := by
  have hWF : WFep [SinkOp.skip 2, SinkOp.write [97, 98, 99], SinkOp.fill 0 [90, 33]] := by
    decide
  have h := c1_hole_ordering [] 0 0 _ hWF
  refine ⟨hWF, ?_, h.2.2.1 2 (by decide)⟩
  rw [h.1]
  decide

/-- C2 counterexample: on a callback sink, a reservation of 2 bytes
succeeds but leaves the printed counter at 0, not 2: `printed` is not
incremented by `count` at reservation time for non-memory sinks
(printer.c:607-632 has no `printed` update in the non-memory branch). -/
theorem c2_printed_counterexample :
    (ly_write_skip { method := OutMethod.clb [] [] } 2).1 = LY_ERR.LY_SUCCESS ∧
    (ly_write_skip { method := OutMethod.clb [] [] } 2).2.2.printed = 0 ∧
    ¬ (ly_write_skip { method := OutMethod.clb [] [] } 2).2.2.printed = 2 := by
  decide

/-- C2 amended: size accounting is reservation-time only for the memory
variant: on a memory sink, after any sequence of successful direct
writes and reservations, `printed` equals the sum of all requested
lengths.  For non-memory sinks, reservations and buffered writes do not
change `printed` at all while holes are outstanding (it stays at its
initial value at every proper prefix of the episode); `printed` is
updated only when the hole buffer is flushed by the last backfill, at
which point it equals the initial value plus the sum of all requested
lengths. -/
theorem c2_printed_accounting :
    (∀ (ops : List SinkOp) (s : RunSt) (mbuf : List Nat) (msize : Nat),
      s.out.method = .mem mbuf msize → s.out.status = .LY_SUCCESS →
      s.out.hole_count = 0 → s.out.allocs = [] →
      numFills ops = 0 →
      (runOps s ops).out.printed = s.out.printed + segLen ops) ∧
    (∀ (C : List (List Nat)) (p sz : Nat) (epi : List SinkOp), WFep epi →
      (runOps (epStart C p sz) epi).out.printed = p + segLen epi ∧
      (∀ n, n < epi.length → (runOps (epStart C p sz) (epi.take n)).out.printed = p)) := by
  refine ⟨fun ops s mbuf msize h1 h2 h3 h4 h5 => mem_run_printed ops s mbuf msize h1 h2 h3 h4 h5, ?_⟩
  intro C p sz epi hWF
  refine ⟨(ep_run C p sz epi hWF).2.2.1, ?_⟩
  intro n hn
  exact (ep_inv_all C p sz epi hWF n hn).2.2.1

/-- Witness for C2 amended: a memory sink after writing 1 byte and
reserving 2 has printed 3; the callback-sink episode of the C1 scenario
has printed 0 before the backfill and 5 after it. -/
theorem c2_printed_accounting_witness :
    numFills [SinkOp.write [9], SinkOp.skip 2] = 0 ∧
    (runOps { out := { method := .mem [] 0, printed := 0, status := .LY_SUCCESS,
                       hole_count := 0, buffered := [], buf_size := 0, allocs := [] },
              tokens := [] } [SinkOp.write [9], SinkOp.skip 2]).out.printed = 3 ∧
    WFep [SinkOp.skip 2, SinkOp.write [97, 98, 99], SinkOp.fill 0 [90, 33]] ∧
    (runOps (epStart [] 0 0)
      [SinkOp.skip 2, SinkOp.write [97, 98, 99], SinkOp.fill 0 [90, 33]]).out.printed = 5 ∧
    (runOps (epStart [] 0 0)
      ([SinkOp.skip 2, SinkOp.write [97, 98, 99], SinkOp.fill 0 [90, 33]].take 2)).out.printed
      = 0 := by
  have hWF : WFep [SinkOp.skip 2, SinkOp.write [97, 98, 99], SinkOp.fill 0 [90, 33]] := by
    decide
  have h1 := c2_printed_accounting.1 [SinkOp.write [9], SinkOp.skip 2]
    { out := { method := .mem [] 0, printed := 0, status := .LY_SUCCESS,
               hole_count := 0, buffered := [], buf_size := 0, allocs := [] },
      tokens := [] } [] 0 rfl rfl rfl rfl (by decide)
  have h2 := (c2_printed_accounting.2 [] 0 0
    [SinkOp.skip 2, SinkOp.write [97, 98, 99], SinkOp.fill 0 [90, 33]] hWF)
  refine ⟨by decide, ?_, hWF, ?_, h2.2 2 (by decide)⟩
  · rw [h1]
    decide
  · rw [h2.1]
    decide

/-- C3 counterexample: on a callback sink with two adjacent 2-byte
reservations (tokens 0 and 2), backfilling token 0 with 3 bytes — one
more than was reserved there — is accepted (`LY_SUCCESS`, not rejected)
and overwrites byte 2, which belongs to the adjacent second reservation:
the hole buffer becomes [7, 7, 7, 0]. -/
theorem c3_overfill_counterexample :
    (ly_write_skipped (runOps (epStart [] 0 0) [SinkOp.skip 2, SinkOp.skip 2]).out
      (nthD (runOps (epStart [] 0 0) [SinkOp.skip 2, SinkOp.skip 2]).tokens 0) [7, 7, 7]).1
      = LY_ERR.LY_SUCCESS ∧
    (ly_write_skipped (runOps (epStart [] 0 0) [SinkOp.skip 2, SinkOp.skip 2]).out
      (nthD (runOps (epStart [] 0 0) [SinkOp.skip 2, SinkOp.skip 2]).tokens 0) [7, 7, 7]).2.buffered
      = [7, 7, 7, 0] := by
  decide

/-- C3 amended: the only validation `ly_write_skipped` performs on a
non-memory sink is the range check against the current hole-buffer
length: a backfill with `position + count` beyond `buf_len` is rejected
with `LY_EMEM`, sets the sticky status, and leaves the hole buffer, the
hole counter and the target untouched.  Any within-range backfill is
accepted unconditionally — even one that repeats a retired token, was
never reserved, or supplies more bytes than were reserved, in which case
it overwrites bytes of adjacent reserved regions (see the
counterexample); the memory variant performs no validation at all. -/
theorem c3_backfill_range_check (out : LypOut) (rs : List ClbResult)
    (cs : List (List Nat)) (position : Nat) (bs : List Nat)
    (hm : out.method = .clb rs cs) (hs : out.status = .LY_SUCCESS)
    (hrange : out.buffered.length < position + bs.length) :
    ly_write_skipped out position bs = (LY_ERR.LY_EMEM, { out with status := .LY_ESYS }) := by
  have hck : lyout_check_fails out = false := by
    simp [lyout_check_fails, hs]
  simp only [ly_write_skipped, hck, Bool.false_eq_true, if_false, hm, if_pos hrange]

/-- Witness for C3 amended: backfilling 2 bytes at position 1 of a
callback sink whose hole buffer holds a single byte is rejected with
`LY_EMEM` and only the sticky status changes. -/
theorem c3_backfill_range_check_witness :
    (({ method := OutMethod.clb [] [], buffered := [5], buf_size := 1,
        hole_count := 1 } : LypOut).buffered.length < 1 + [8, 8].length) ∧
    ly_write_skipped { method := OutMethod.clb [] [], buffered := [5], buf_size := 1,
                       hole_count := 1 } 1 [8, 8] =
      (LY_ERR.LY_EMEM, { method := OutMethod.clb [] [], buffered := [5], buf_size := 1,
                         hole_count := 1, status := LY_ERR.LY_ESYS }) := by
  refine ⟨by decide, ?_⟩
  have h := c3_backfill_range_check
    { method := OutMethod.clb [] [], buffered := [5], buf_size := 1, hole_count := 1 }
    [] [] 1 [8, 8] rfl rfl (by decide)
  exact h

/-- C4: a short write on a callback sink (the target accepts `m` bytes
of a request of different length) makes `lyp_write` fail with `LY_ESYS`
and set the sticky status, after exactly one more target invocation; and
on any sink whose sticky status is already set, `lyp_write` fails
immediately, returning the stored status and leaving the state — in
particular the invocation record — completely unchanged, so the target
is not invoked again. -/
theorem c4_short_write_sticky (out : LypOut) (rs : List ClbResult)
    (cs : List (List Nat)) (m : Nat) (buf : List Nat)
    (hm : out.method = .clb (ClbResult.ok m :: rs) cs) (hs : out.status = .LY_SUCCESS)
    (hh : out.hole_count = 0) (hne : m ≠ buf.length) :
    lyp_write out buf = (LY_ERR.LY_ESYS,
      { out with method := .clb rs (cs ++ [buf]), status := .LY_ESYS }) ∧
    (∀ (o : LypOut) (buf' : List Nat), o.status = .LY_ESYS →
      lyp_write o buf' = (LY_ERR.LY_ESYS, o)) := by
  constructor
  · have hck : lyout_check_fails out = false := by
      simp [lyout_check_fails, hs]
    simp only [lyp_write, hck, Bool.false_eq_true, if_false, hh, ne_eq, not_true_eq_false,
      reduceIte, hm, lyp_write_clb, clbRun]
    have h0 : ¬ ((m : Int) < 0) := by omega
    simp [h0, hne]
  · intro o buf' ho
    have hck : lyout_check_fails o = true := by
      simp [lyout_check_fails, ho]
    simp [lyp_write, hck, ho]

/-- Witness for C4: a callback accepting only 1 byte of a 3-byte request
fails the call with sticky status; the next write on the resulting sink
fails with the stored status and does not invoke the callback (the
invocation record still holds exactly one call). -/
theorem c4_short_write_sticky_witness :
    lyp_write { method := OutMethod.clb [ClbResult.ok 1] [] } [1, 2, 3] =
      (LY_ERR.LY_ESYS, { method := OutMethod.clb [] [[1, 2, 3]],
                         status := LY_ERR.LY_ESYS }) ∧
    lyp_write { method := OutMethod.clb [] [[1, 2, 3]], status := LY_ERR.LY_ESYS } [4] =
      (LY_ERR.LY_ESYS, { method := OutMethod.clb [] [[1, 2, 3]],
                         status := LY_ERR.LY_ESYS }) := by
  have h := c4_short_write_sticky { method := OutMethod.clb [ClbResult.ok 1] [] }
    [] [] 1 [1, 2, 3] rfl rfl rfl (by decide)
  exact ⟨h.1, h.2 _ [4] rfl⟩

/-- C5 counterexample: in the formatted write `lyp_print`, a would-block
result from the callback is surfaced as a fatal `LY_ESYS` and sets the
sticky status — there is no retry loop in printer.c:399-472, so the
claim fails for the formatted write. -/
theorem c5_print_would_block_counterexample :
    (lyp_print { method := OutMethod.clb [ClbResult.wouldBlock] [] } [97]).1
      = LY_ERR.LY_ESYS ∧
    (lyp_print { method := OutMethod.clb [ClbResult.wouldBlock] [] } [97]).2.status
      = LY_ERR.LY_ESYS := by
  decide

/-- C5 amended: only the raw write `lyp_write` retries on a would-block
result: consuming a leading would-block response leaves the final result
and state of `lyp_write` exactly as if the write had started at the next
response (after recording the extra target invocation) — the transient
result is neither surfaced nor stored.  The formatted write `lyp_print`
has no retry: the same would-block response makes it fail with `LY_ESYS`
and sets the sticky status. -/
theorem c5_would_block_retry (out : LypOut) (rs : List ClbResult)
    (cs : List (List Nat)) (buf : List Nat)
    (hm : out.method = .clb (ClbResult.wouldBlock :: rs) cs)
    (hs : out.status = .LY_SUCCESS) (hh : out.hole_count = 0) :
    lyp_write out buf = lyp_write { out with method := .clb rs (cs ++ [buf]) } buf ∧
    (lyp_print out buf).1 = LY_ERR.LY_ESYS ∧
    (lyp_print out buf).2.status = LY_ERR.LY_ESYS := by
  have hck : lyout_check_fails out = false := by
    simp [lyout_check_fails, hs]
  have hck2 : lyout_check_fails { out with method := OutMethod.clb rs (cs ++ [buf]) } = false := by
    simp [lyout_check_fails, hs]
  refine ⟨?_, ?_, ?_⟩
  · simp [lyp_write, lyout_check_fails, hs, hh, hm, lyp_write_clb, clbRun]
  · simp [lyp_print, hck, hm]
  · simp [lyp_print, hck, hm]

/-- Witness for C5 amended: a callback first reporting would-block and
then accepting everything makes the raw write of one byte succeed with
two recorded invocations, while the formatted write fails fatally. -/
theorem c5_would_block_retry_witness :
    lyp_write { method := OutMethod.clb [ClbResult.wouldBlock] [] } [3] =
      (LY_ERR.LY_SUCCESS, { method := OutMethod.clb [] [[3], [3]], printed := 1 }) ∧
    (lyp_print { method := OutMethod.clb [ClbResult.wouldBlock] [] } [3]).1
      = LY_ERR.LY_ESYS := by
  have h := c5_would_block_retry { method := OutMethod.clb [ClbResult.wouldBlock] [] }
    [] [] [3] rfl rfl rfl
  refine ⟨?_, h.2.1⟩
  rw [h.1]
  decide

/-- C6 counterexample: on a memory sink whose sticky status is already
set, `lyp_out_reset` does not fail: it returns `LY_SUCCESS` and still
zeroes the printed counter and the logical length — the claimed
fail-immediately-without-side-effects behaviour does not hold for reset
(printer.c:274-307 has no status check). -/
theorem c6_reset_ignores_status_counterexample :
    (lyp_out_reset { method := OutMethod.mem [1, 2] 3, printed := 2,
                     status := LY_ERR.LY_ESYS }).1 = LY_ERR.LY_SUCCESS ∧
    (lyp_out_reset { method := OutMethod.mem [1, 2] 3, printed := 2,
                     status := LY_ERR.LY_ESYS }).2.printed = 0 ∧
    memContent (lyp_out_reset { method := OutMethod.mem [1, 2] 3, printed := 2,
                                status := LY_ERR.LY_ESYS }).2 = [] := by
  decide

/-- C6 amended: once the sticky status is set, the two write operations
and the two hole operations check it at entry and fail immediately with
the stored status and no side effects; but reset and flush do not check
it: reset on a memory sink still succeeds and zeroes `printed` and the
logical length, and flush still discards the hole buffer, regardless of
the stored status. -/
theorem c6_status_gate (o : LypOut) (e : LY_ERR) (buf : List Nat) (pos c : Nat)
    (he : o.status = e) (hne : e ≠ LY_ERR.LY_SUCCESS) :
    lyp_write o buf = (e, o) ∧
    lyp_print o buf = (e, o) ∧
    ly_write_skip o c = (e, 0, o) ∧
    ly_write_skipped o pos buf = (e, o) ∧
    (∀ mbuf msize, o.method = .mem mbuf msize →
      lyp_out_reset o = (LY_ERR.LY_SUCCESS, { o with printed := 0, method := .mem [] msize })) ∧
    ly_print_flush o = { o with buffered := [], buf_size := 0 } := by
  have hck : lyout_check_fails o = true := by
    simp [lyout_check_fails, he, hne]
  refine ⟨?_, ?_, ?_, ?_, ?_, rfl⟩
  · simp [lyp_write, hck, he]
  · simp [lyp_print, hck, he]
  · simp [ly_write_skip, hck, he]
  · simp [ly_write_skipped, hck, he]
  · intro mbuf msize hm
    simp [lyp_out_reset, hm]

/-- Witness for C6 amended: a failed memory sink with 2 bytes of content
rejects a write with the stored status, yet reset still succeeds and
clears it. -/
theorem c6_status_gate_witness :
    lyp_write { method := OutMethod.mem [1, 2] 3, printed := 2,
                status := LY_ERR.LY_ESYS } [7] =
      (LY_ERR.LY_ESYS, { method := OutMethod.mem [1, 2] 3, printed := 2,
                         status := LY_ERR.LY_ESYS }) ∧
    lyp_out_reset { method := OutMethod.mem [1, 2] 3, printed := 2,
                    status := LY_ERR.LY_ESYS } =
      (LY_ERR.LY_SUCCESS, { method := OutMethod.mem [] 3, printed := 0,
                            status := LY_ERR.LY_ESYS }) := by
  have h := c6_status_gate { method := OutMethod.mem [1, 2] 3, printed := 2,
                             status := LY_ERR.LY_ESYS } LY_ERR.LY_ESYS [7] 0 0 rfl (by decide)
  exact ⟨h.1, h.2.2.2.2.1 [1, 2] 3 rfl⟩

/-- C7: on any memory sink in a clean state, reserving `bs.length` bytes
and then backfilling the reservation with `bs` succeeds and yields
exactly the same final logical buffer content and the same printed
counter as writing `bs` directly; and in particular the spec scenario
holds: on a fresh memory sink, write "abc", reserve 4 bytes, write
"xyz", then backfill the reservation with "1234" gives final buffer
"abc1234xyz" and printed = 10. -/
theorem c7_memory_roundtrip (o : LypOut) (mbuf bs : List Nat) (msize : Nat)
    (hm : o.method = .mem mbuf msize) (hs : o.status = .LY_SUCCESS)
    (hh : o.hole_count = 0) (ha : o.allocs = []) :
    ((lyp_write o bs).1 = LY_ERR.LY_SUCCESS ∧
     (ly_write_skip o bs.length).1 = LY_ERR.LY_SUCCESS ∧
     (ly_write_skipped (ly_write_skip o bs.length).2.2 (ly_write_skip o bs.length).2.1 bs).1
       = LY_ERR.LY_SUCCESS ∧
     memContent (ly_write_skipped (ly_write_skip o bs.length).2.2
       (ly_write_skip o bs.length).2.1 bs).2 = memContent (lyp_write o bs).2 ∧
     (ly_write_skipped (ly_write_skip o bs.length).2.2
       (ly_write_skip o bs.length).2.1 bs).2.printed = (lyp_write o bs).2.printed) ∧
    (memContent (runOps { out := { method := OutMethod.mem [] 0 }, tokens := [] }
        [SinkOp.write [97, 98, 99], SinkOp.skip 4, SinkOp.write [120, 121, 122],
          SinkOp.fill 0 [49, 50, 51, 52]]).out
      = [97, 98, 99, 49, 50, 51, 52, 120, 121, 122] ∧
     (runOps { out := { method := OutMethod.mem [] 0 }, tokens := [] }
        [SinkOp.write [97, 98, 99], SinkOp.skip 4, SinkOp.write [120, 121, 122],
          SinkOp.fill 0 [49, 50, 51, 52]]).out.printed = 10) := by
  have hck : lyout_check_fails o = false := by
    simp [lyout_check_fails, hs]
  refine ⟨?_, by decide, by decide⟩
  by_cases hg1 : mbuf.length + bs.length + 1 > msize
  · by_cases hg2 : mbuf.length + bs.length > msize
    · simp [lyp_write, ly_write_skip, ly_write_skipped, hck, hh, hm, lyp_write_mem, ha,
        takeAlloc, hg1, hg2, lyout_check_fails, hs, memContent, writeAt_fill_exact]
    · simp [lyp_write, ly_write_skip, ly_write_skipped, hck, hh, hm, lyp_write_mem, ha,
        takeAlloc, hg1, hg2, lyout_check_fails, hs, memContent, writeAt_fill_exact]
  · have hg2 : ¬ (mbuf.length + bs.length > msize) := by omega
    simp [lyp_write, ly_write_skip, ly_write_skipped, hck, hh, hm, lyp_write_mem, ha,
      takeAlloc, hg1, hg2, lyout_check_fails, hs, memContent, writeAt_fill_exact]

/-- Witness for C7: the roundtrip instantiated on a fresh memory sink
with content "ab": backfilling a 2-byte reservation with "ab" ends with
buffer "ab" and printed 2, same as the direct write. -/
theorem c7_memory_roundtrip_witness :
    memContent (ly_write_skipped
      (ly_write_skip { method := OutMethod.mem [] 0 } 2).2.2
      (ly_write_skip { method := OutMethod.mem [] 0 } 2).2.1 [97, 98]).2
      = memContent (lyp_write { method := OutMethod.mem [] 0 } [97, 98]).2 ∧
    memContent (lyp_write { method := OutMethod.mem [] 0 } [97, 98]).2 = [97, 98] := by
  have h := c7_memory_roundtrip { method := OutMethod.mem [] 0 } [] [97, 98] 0
    rfl rfl rfl rfl
  exact ⟨h.1.2.2.2.1, by decide⟩

/-- C8: resetting a memory sink returns `LY_SUCCESS`, zeroes the printed
counter and the logical length, and leaves the capacity and every other
field unchanged; a subsequent write of `bs` then succeeds (in a clean
state) and leaves the buffer holding exactly `bs` — the prior content is
overwritten, not appended — with printed equal to `bs.length`. -/
theorem c8_reset_then_write (o : LypOut) (mbuf bs : List Nat) (msize : Nat)
    (hm : o.method = .mem mbuf msize) (hs : o.status = .LY_SUCCESS)
    (hh : o.hole_count = 0) (ha : o.allocs = []) :
    lyp_out_reset o = (LY_ERR.LY_SUCCESS, { o with printed := 0, method := .mem [] msize }) ∧
    (lyp_write (lyp_out_reset o).2 bs).1 = LY_ERR.LY_SUCCESS ∧
    memContent (lyp_write (lyp_out_reset o).2 bs).2 = bs ∧
    (lyp_write (lyp_out_reset o).2 bs).2.printed = bs.length := by
  have hrst : lyp_out_reset o =
      (LY_ERR.LY_SUCCESS, { o with printed := 0, method := .mem [] msize }) := by
    simp [lyp_out_reset, hm]
  refine ⟨hrst, ?_, ?_, ?_⟩ <;>
    rw [hrst] <;>
    by_cases hg : msize < bs.length + 1 <;>
    simp [lyp_write, lyout_check_fails, hs, hh, lyp_write_mem, ha, takeAlloc, hg, memContent]

/-- Witness for C8: resetting a memory sink holding "ab" with printed 2,
then writing "xyz", leaves exactly "xyz" with printed 3. -/
theorem c8_reset_then_write_witness :
    memContent (lyp_write (lyp_out_reset { method := OutMethod.mem [97, 98] 3, printed := 2 }).2 [120, 121, 122]).2 = [120, 121, 122] ∧
    (lyp_write (lyp_out_reset { method := OutMethod.mem [97, 98] 3, printed := 2 }).2 [120, 121, 122]).2.printed = 3 := by
  have h := c8_reset_then_write { method := OutMethod.mem [97, 98] 3, printed := 2 }
    [97, 98] [120, 121, 122] 3 rfl rfl rfl rfl
  exact ⟨h.2.2.1, h.2.2.2⟩

/-- C9 counterexample: on a callback sink holding 2 accumulated hole
bytes, a buffered direct write whose hole-buffer growth fails reports
`LY_EMEM` but zeroes the hole buffer's length and size, discarding the
previously accumulated content [5, 5] instead of leaving it intact
(printer.c:512-518 overwrites the pointer and zeroes the counters). -/
theorem c9_alloc_failure_counterexample :
    (lyp_write { method := OutMethod.clb [] [], hole_count := 1, buffered := [5, 5],
                 buf_size := 2, allocs := [false] } [6]).1 = LY_ERR.LY_EMEM ∧
    (lyp_write { method := OutMethod.clb [] [], hole_count := 1, buffered := [5, 5],
                 buf_size := 2, allocs := [false] } [6]).2.buffered = [] ∧
    ¬ (lyp_write { method := OutMethod.clb [] [], hole_count := 1, buffered := [5, 5],
                   buf_size := 2, allocs := [false] } [6]).2.buffered = [5, 5] ∧
    (lyp_write { method := OutMethod.clb [] [], hole_count := 1, buffered := [5, 5],
                 buf_size := 2, allocs := [false] } [6]).2.buf_size = 0 := by
  decide

/-- C9 amended: when growing the hole buffer fails, the operation does
report an error (`LY_EMEM`), but the previously accumulated hole-buffer
content, length and size are NOT preserved: both the buffered direct
write and the reservation zero `buf_len` and `buf_size`, discarding the
accumulated bytes (the reservation additionally sets the sticky status,
the buffered write does not). -/
theorem c9_alloc_failure_discards (o : LypOut) (rs : List ClbResult)
    (cs : List (List Nat)) (buf : List Nat) (c : Nat) (al : List Bool)
    (hm : o.method = .clb rs cs) (hs : o.status = .LY_SUCCESS)
    (ha : o.allocs = false :: al) :
    (o.hole_count ≠ 0 → o.buffered.length + buf.length > o.buf_size →
      lyp_write o buf = (LY_ERR.LY_EMEM,
        { o with buffered := [], buf_size := 0, allocs := al })) ∧
    (o.buffered.length + c > o.buf_size →
      ly_write_skip o c = (LY_ERR.LY_EMEM, 0,
        { o with buffered := [], buf_size := 0, status := .LY_ESYS, allocs := al })) := by
  have hck : lyout_check_fails o = false := by
    simp [lyout_check_fails, hs]
  constructor
  · intro hh hg
    simp [lyp_write, hck, hh, lyp_write_hole, hg, ha, takeAlloc]
  · intro hg
    simp [ly_write_skip, hck, hm, hg, ha, takeAlloc]

/-- Witness for C9 amended: the concrete allocation failure of the
counterexample, plus the reservation variant on the same sink. -/
theorem c9_alloc_failure_discards_witness :
    lyp_write { method := OutMethod.clb [] [], hole_count := 1, buffered := [5, 5],
                buf_size := 2, allocs := [false] } [6] =
      (LY_ERR.LY_EMEM, { method := OutMethod.clb [] [], hole_count := 1, buffered := [],
                         buf_size := 0, allocs := [] }) ∧
    ly_write_skip { method := OutMethod.clb [] [], hole_count := 1, buffered := [5, 5],
                    buf_size := 2, allocs := [false] } 1 =
      (LY_ERR.LY_EMEM, 0, { method := OutMethod.clb [] [], hole_count := 1, buffered := [],
                            buf_size := 0, status := LY_ERR.LY_ESYS, allocs := [] }) := by
  have h := c9_alloc_failure_discards
    { method := OutMethod.clb [] [], hole_count := 1, buffered := [5, 5], buf_size := 2,
      allocs := [false] } [] [] [6] 1 [] rfl rfl rfl
  exact ⟨h.1 (by decide) (by decide), h.2 (by decide)⟩

/-- C10 counterexample: flushing a callback sink with one outstanding
2-byte hole empties the hole buffer while keeping `hole_count = 1`; the
pending backfill of that hole then fails the range check with `LY_EMEM`
and sticky status, and does NOT decrement the hole counter — contrary to
the claim that each pending backfill still decrements it. -/
theorem c10_flush_backfill_counterexample :
    (ly_write_skipped (ly_print_flush { method := OutMethod.clb [] [], hole_count := 1, buffered := [0, 0], buf_size := 2 }) 0 [8, 8]).1 = LY_ERR.LY_EMEM ∧
    (ly_write_skipped (ly_print_flush { method := OutMethod.clb [] [], hole_count := 1, buffered := [0, 0], buf_size := 2 }) 0 [8, 8]).2.hole_count = 1 ∧
    ¬ (ly_write_skipped (ly_print_flush { method := OutMethod.clb [] [], hole_count := 1, buffered := [0, 0], buf_size := 2 }) 0 [8, 8]).2.hole_count = 0 := by
  decide

/-- C10 amended: flush zeroes the hole buffer's length and size and
leaves every other field — in particular the outstanding-hole counter —
unchanged; on a sink flushed while holes are outstanding, every
subsequent direct write is still redirected into the (now emptied) hole
buffer and does not reach the target; but a pending backfill of nonzero
extent now exceeds the emptied buffer's length, so it fails with
`LY_EMEM` and sticky status and does not decrement the counter. -/
theorem c10_flush_frame (o : LypOut) (bs : List Nat) (pos : Nat)
    (rs : List ClbResult) (cs : List (List Nat)) :
    ly_print_flush o = { o with buffered := [], buf_size := 0 } ∧
    (ly_print_flush o).hole_count = o.hole_count ∧
    (o.status = .LY_SUCCESS → o.hole_count ≠ 0 → o.allocs = [] →
      (lyp_write (ly_print_flush o) bs).1 = LY_ERR.LY_SUCCESS ∧
      (lyp_write (ly_print_flush o) bs).2.buffered = bs ∧
      (lyp_write (ly_print_flush o) bs).2.method = o.method) ∧
    (o.method = .clb rs cs → o.status = .LY_SUCCESS → 0 < pos + bs.length →
      ly_write_skipped (ly_print_flush o) pos bs =
        (LY_ERR.LY_EMEM, { o with buffered := [], buf_size := 0, status := .LY_ESYS })) := by
  refine ⟨rfl, rfl, ?_, ?_⟩
  · intro hs hh ha
    by_cases hg : bs.length > 0
    · simp [lyp_write, lyout_check_fails, hs, ly_print_flush, hh, lyp_write_hole, hg, ha,
        takeAlloc]
    · simp [lyp_write, lyout_check_fails, hs, ly_print_flush, hh, lyp_write_hole, hg, ha,
        takeAlloc]
  · intro hm hs hpos
    simp [ly_write_skipped, lyout_check_fails, hs, ly_print_flush, hm, hpos]

/-- Witness for C10 amended: a flushed callback sink with one
outstanding hole keeps `hole_count = 1`; a 1-byte write after the flush
lands in the emptied hole buffer without invoking the target; the
pending 2-byte backfill at token 0 fails with `LY_EMEM`. -/
theorem c10_flush_frame_witness :
    (ly_print_flush { method := OutMethod.clb [] [], hole_count := 1, buffered := [0, 0], buf_size := 2 }).hole_count = 1 ∧
    (lyp_write (ly_print_flush { method := OutMethod.clb [] [], hole_count := 1, buffered := [0, 0], buf_size := 2 }) [9]).2.buffered = [9] ∧
    ly_write_skipped (ly_print_flush { method := OutMethod.clb [] [], hole_count := 1, buffered := [0, 0], buf_size := 2 }) 0 [8, 8] =
      (LY_ERR.LY_EMEM, { method := OutMethod.clb [] [], hole_count := 1,
                         buffered := [], buf_size := 0, status := LY_ERR.LY_ESYS }) := by
  have h := c10_flush_frame
    { method := OutMethod.clb [] [], hole_count := 1, buffered := [0, 0], buf_size := 2 }
    [9] 0 [] []
  have h2 := c10_flush_frame
    { method := OutMethod.clb [] [], hole_count := 1, buffered := [0, 0], buf_size := 2 }
    [8, 8] 0 [] []
  exact ⟨h.2.1, (h.2.2.1 rfl (by decide) rfl).2.1, h2.2.2.2 rfl rfl (by decide)⟩

end Ly
